import Mathlib

/-!
Shallow embedding of `src/run_railway_pagerank.py`, a single-pass pipeline:
CSV edge loader → coordinate loader (with trailing designator stripping) →
graph filter (node-set intersection) → PageRank → log min–max visual scaling →
top-15 label selection.

Station names are modelled as `List Char` (Python strings are sequences of
code points).  Python `dict`s are modelled as association lists with
insert-or-overwrite-in-place semantics.  `networkx.DiGraph` is modelled as a
pair of finite sets (node set, directed edge set): duplicate edges collapse,
matching `add_edge` semantics.  Real numbers are modelled as `ℚ`; the
values of Python `float()` are modelled by `PyFloat` (an exact rational or
one of the non-finite values `inf`/`-inf`/`nan` that `float()` also
accepts); `numpy` division by zero (which yields NaN) is modelled by an
`Option` result.
-/

/-- Station name: a Python string as a sequence of code points. -/
abbrev RName := List Char

/-- Simple directed graph, modelling `networkx.DiGraph`: a set of nodes and a
set of directed edges.  Duplicate edges collapse because the edge container is
a set. -/
structure NXDiGraph (α : Type) [DecidableEq α] where
  nodes : Finset α
  edges : Finset (α × α)

/-- The empty graph, `nx.DiGraph()`. -/
def NXDiGraph.empty (α : Type) [DecidableEq α] : NXDiGraph α := ⟨∅, ∅⟩

/-- Model of `graph.add_edge(u, v)`: inserts both endpoints as nodes and the
directed edge `(u, v)`. -/
def NXDiGraph.addEdge {α : Type} [DecidableEq α] (g : NXDiGraph α) (u v : α) :
    NXDiGraph α :=
  ⟨insert u (insert v g.nodes), insert (u, v) g.edges⟩

/-- One CSV row of `line.csv` as seen by the loader: the results of
`row.get("src")` and `row.get("dst")` (`none` models a missing column,
`some []` an empty string). -/
structure LineRow where
  src : Option RName
  dst : Option RName

/-- Python truthiness of an optional string: present and non-empty. -/
def fieldTruthy (o : Option RName) : Bool :=
  match o with
  | none => false
  | some s => !s.isEmpty

/-- The edge a `line.csv` row contributes, if any: both fields must be
present and non-empty (`if src_station and dst_station`), lines 31–35 of the
source. -/
def edgeOfRow (r : LineRow) : Option (RName × RName) :=
  match r.src, r.dst with
  | some s, some d => if !s.isEmpty && !d.isEmpty then some (s, d) else none
  | _, _ => none

/-- Model of `build_graph_from_csv` (lines 29–38): fold over the row stream,
adding an edge for each row whose two fields are truthy and skipping the
rest. -/
def build_graph_from_csv (rows : List LineRow) (g : NXDiGraph RName) :
    NXDiGraph RName :=
  rows.foldl
    (fun acc r =>
      match edgeOfRow r with
      | some (s, d) => acc.addEdge s d
      | none => acc) g

/-- The designator character stripped from station names (`'站'`). -/
def zhan : Char := '站'

/-- Model of lines 68–69: if the name ends with the designator character,
drop exactly the final character (`station_name[:-1]`); otherwise keep the
name unchanged. -/
def normalizeName (s : RName) : RName :=
  if s.getLast? = some zhan then s.dropLast else s

/-- Decimal-digit value of a character, `none` for non-digits. -/
def digitVal (c : Char) : Option Nat :=
  if c.isDigit then some (c.toNat - 48) else none

/-- Split a leading sign off a character list, returning (sign, rest). -/
def splitSign : List Char → Bool × List Char
  | [] => (true, [])
  | c :: t =>
    if c = '-' then (false, t)
    else if c = '+' then (true, t)
    else (true, c :: t)

/-- ASCII whitespace stripped by Python `float()` around a numeric text. -/
def isPySpace (c : Char) : Bool :=
  c = ' ' || c = '\t' || c = '\n' || c = '\r' || c = '\x0b' || c = '\x0c'

/-- A value produced by Python `float()`: a finite rational, or one of the
non-finite values `inf`, `-inf`, `nan` that `float()` also accepts. -/
inductive PyFloat : Type
  | finite (q : ℚ)
  | inf
  | negInf
  | nan
  deriving DecidableEq

/-- Scan a maximal run of decimal digits with PEP 515 underscore grouping
(an underscore only between two digits), returning the accumulated value,
the number of digits consumed, and the unconsumed remainder.  A misplaced
underscore is left in the remainder, so a full parse fails on it. -/
def scanUDigits : Nat → Nat → List Char → Nat × Nat × List Char
  | acc, cnt, [] => (acc, cnt, [])
  | acc, cnt, c :: t =>
    match digitVal c with
    | some d => scanUDigits (acc * 10 + d) (cnt + 1) t
    | none =>
      if c = '_' ∧ cnt ≠ 0 then
        match t with
        | c2 :: t2 =>
          match digitVal c2 with
          | some d => scanUDigits (acc * 10 + d) (cnt + 1) t2
          | none => (acc, cnt, c :: t)
        | [] => (acc, cnt, c :: t)
      else (acc, cnt, c :: t)

/-- Scaling factor of an exponent part: `10 ^ e` or `10 ^ (-e)`. -/
def expFactor (sgnE : Bool) (e : Nat) : ℚ :=
  if sgnE then (10 : ℚ) ^ e else 1 / (10 : ℚ) ^ e

/-- Parse the text after `e`/`E`: an optional sign and a non-empty
underscore-grouped digit run that must consume the whole text. -/
def parseExponent (s : List Char) : Option ℚ :=
  match splitSign s with
  | (sgnE, ds) =>
    match scanUDigits 0 0 ds with
    | (e, cnt, rest) =>
      if cnt ≠ 0 ∧ rest = [] then some (expFactor sgnE e) else none

/-- Parse an unsigned Python decimal literal
`digits [. digits] [(e|E) [sign] digits]` (with at least one mantissa digit
and PEP 515 underscore grouping), consuming the whole text; returns its
exact rational value. -/
def parseNumber (s : List Char) : Option ℚ :=
  match scanUDigits 0 0 s with
  | (ival, icnt, r1) =>
    match r1 with
    | [] => if icnt = 0 then none else some (ival : ℚ)
    | c :: r2 =>
      if c = '.' then
        match scanUDigits 0 0 r2 with
        | (fval, fcnt, r3) =>
          if icnt = 0 ∧ fcnt = 0 then none
          else
            match r3 with
            | [] => some ((ival : ℚ) + (fval : ℚ) / 10 ^ fcnt)
            | c2 :: r4 =>
              if c2 = 'e' ∨ c2 = 'E' then
                match parseExponent r4 with
                | some fct =>
                  some (((ival : ℚ) + (fval : ℚ) / 10 ^ fcnt) * fct)
                | none => none
              else none
      else if (c = 'e' ∨ c = 'E') ∧ icnt ≠ 0 then
        match parseExponent r2 with
        | some fct => some ((ival : ℚ) * fct)
        | none => none
      else none

/-- Model of Python `float(s)` on the ASCII fragment used by the data files:
surrounding whitespace is stripped, an optional sign is read, and the rest
is either the case-insensitive keyword `inf`/`infinity`/`nan` (producing a
non-finite value) or a decimal literal with optional fraction, exponent and
PEP 515 underscore grouping (producing an exact finite rational).  `none`
models the `ValueError` that line 70 catches. -/
def pyFloat (s : List Char) : Option PyFloat :=
  let t1 := s.dropWhile isPySpace
  let t2 := (t1.reverse.dropWhile isPySpace).reverse
  match splitSign t2 with
  | (sgn, body) =>
    let lower := body.map Char.toLower
    if lower = ['i', 'n', 'f'] ∨
        lower = ['i', 'n', 'f', 'i', 'n', 'i', 't', 'y'] then
      some (if sgn then PyFloat.inf else PyFloat.negInf)
    else if lower = ['n', 'a', 'n'] then some PyFloat.nan
    else
      match parseNumber body with
      | some q => some (PyFloat.finite (if sgn then q else -q))
      | none => none

/-- Whether a text parses as a finite decimal number under `float()`
(true exactly when `float()` succeeds with a finite value, false on a
parse failure and on the non-finite values `inf`/`-inf`/`nan`). -/
def pyFloatFinite (s : List Char) : Bool :=
  match pyFloat s with
  | some (PyFloat.finite _) => true
  | _ => false

/-- One CSV row of `cnstation.csv` as seen by the loader: the results of
`row.get` on the name, longitude and latitude columns. -/
structure CoordRow where
  name : Option RName
  lon : Option RName
  lat : Option RName

/-- The dictionary entry a `cnstation.csv` row contributes, if any
(lines 63–71): all three fields must be truthy, the name is normalized, and
both coordinate texts must be accepted by `float()` — possibly as the
non-finite values `inf`/`-inf`/`nan`, which are stored like any other
(a `ValueError` from `float` is caught and the row skipped). -/
def entryOfRow (r : CoordRow) : Option (RName × (PyFloat × PyFloat)) :=
  match r.name, r.lon, r.lat with
  | some n, some lo, some la =>
    if !n.isEmpty && !lo.isEmpty && !la.isEmpty then
      match pyFloat lo, pyFloat la with
      | some x, some y => some (normalizeName n, (x, y))
      | _, _ => none
    else none
  | _, _, _ => none

/-- Python dictionary insertion `m[k] = v`: overwrite in place when the key
exists, append otherwise. -/
def dictInsert {α β : Type} [DecidableEq α] :
    List (α × β) → α → β → List (α × β)
  | [], k, v => [(k, v)]
  | p :: t, k, v =>
    if p.1 = k then (k, v) :: t else p :: dictInsert t k v

/-- Key set of an association list. -/
def dictKeys {α β : Type} [DecidableEq α] (m : List (α × β)) : Finset α :=
  (m.map Prod.fst).toFinset

/-- One iteration of the `load_coordinates_from_csv` row loop: insert the
entry of a valid row, keep the dictionary unchanged for a skipped row. -/
def coordStep (pos : List (RName × (PyFloat × PyFloat))) (r : CoordRow) :
    List (RName × (PyFloat × PyFloat)) :=
  match entryOfRow r with
  | some (k, c) => dictInsert pos k c
  | none => pos

/-- Model of `load_coordinates_from_csv` (lines 61–73): fold over the row
stream, inserting the entry of each valid row and silently skipping the
rest. -/
def load_coordinates_from_csv (rows : List CoordRow) :
    List (RName × (PyFloat × PyFloat)) :=
  rows.foldl coordStep []

/-- Model of lines 98–105: `valid = nodes(G) ∩ keys(pos)`; the induced
subgraph `G.subgraph(valid)` keeps exactly the edges with both endpoints in
`valid`; the coordinate dictionary is restricted to keys in `valid`. -/
def graphFilter {α β : Type} [DecidableEq α] (G : NXDiGraph α)
    (pos : List (α × β)) : NXDiGraph α × List (α × β) :=
  let valid : Finset α := G.nodes ∩ dictKeys pos
  (⟨valid, G.edges.filter (fun e => e.1 ∈ valid ∧ e.2 ∈ valid)⟩,
   pos.filter (fun p => p.1 ∈ valid))

/-- Damping factor of the Ranking Engine (spec default 0.85). -/
def alphaDamping : ℚ := 85 / 100

/-- Convergence tolerance of the Ranking Engine (spec default 1e-6). -/
def prTol : ℚ := 1 / 1000000

/-- Out-degree of a node: the number of edges leaving it. -/
def outDeg {α : Type} [DecidableEq α] (G : NXDiGraph α) (u : α) : ℕ :=
  (G.edges.filter (fun e => e.1 = u)).card

/-- Modelled from the spec: one power-iteration step of the Ranking Engine
(§4.4) — the PageRank update performed by the library call `nx.pagerank`,
whose code is not part of this repository.  Each node keeps the teleport
share `(1-α)/n` and receives `α` times the mass flowing along incoming
edges plus a uniform share of the mass of dangling nodes. -/
def pagerankStep {α : Type} [DecidableEq α] (G : NXDiGraph α) (x : α → ℚ) :
    α → ℚ := fun v =>
  if v ∈ G.nodes then
    (1 - alphaDamping) / G.nodes.card +
      alphaDamping *
        ((∑ u ∈ G.nodes, if (u, v) ∈ G.edges then x u / outDeg G u else 0) +
          (∑ u ∈ G.nodes, if outDeg G u = 0 then x u else 0) / G.nodes.card)
  else 0

/-- Modelled from the spec: the bounded power iteration of the Ranking
Engine (§4.4) — iterate until the L1 change between successive score
vectors falls below the tolerance (scaled by the node count, as in the
power-iteration convergence test) or the iteration budget is exhausted. -/
def pagerankIter {α : Type} [DecidableEq α] (G : NXDiGraph α) :
    ℕ → (α → ℚ) → (α → ℚ)
  | 0, x => x
  | k + 1, x =>
    let x2 := pagerankStep G x
    if (∑ v ∈ G.nodes, |x2 v - x v|) < G.nodes.card * prTol then x2
    else pagerankIter G k x2

/-- Modelled from the spec: the Ranking Engine `nx.pagerank` (line 109,
§4.4) — power iteration from the uniform distribution, damping 0.85,
tolerance 1e-6, at most 100 iterations. -/
def pagerank {α : Type} [DecidableEq α] (G : NXDiGraph α) : α → ℚ :=
  pagerankIter G 100 (fun v => if v ∈ G.nodes then (G.nodes.card : ℚ)⁻¹ else 0)

/-- The small offset added before taking logarithms (line 114, `1e-9`). -/
def logEps : ℚ := 1 / 1000000000

/-- Model of line 114, `np.log10(scores + 1e-9)`: the log-scaled values of a
score list.  The transcendental `log10` is abstracted by a parameter
`f : ℚ → ℚ`; every claim about the scaling quantifies over `f`
(instantiated with a strictly monotone function, as `log10` is on the
positive reals). -/
def sizesLog (f : ℚ → ℚ) (scores : List ℚ) : List ℚ :=
  scores.map (fun s => f (s + logEps))

/-- Minimum of a list, `np.min` (meaningful on non-empty input). -/
def listMin : List ℚ → ℚ
  | [] => 0
  | [a] => a
  | a :: b :: t => min a (listMin (b :: t))

/-- Maximum of a list, `np.max` (meaningful on non-empty input). -/
def listMax : List ℚ → ℚ
  | [] => 0
  | [a] => a
  | a :: b :: t => max a (listMax (b :: t))

/-- Display range lower bound (line 118). -/
def min_display_size : ℚ := 5

/-- Display range upper bound (line 119). -/
def max_display_size : ℚ := 300

/-- Model of lines 114–120: min–max normalize the log values and map them
affinely onto `[min_display_size, max_display_size]`.  When all log values
coincide the denominator `max - min` is zero and `numpy` evaluates `0/0` to
NaN for every node; NaN results are modelled as `none` (the source has no
guard for this case). -/
def node_sizes_scaled (f : ℚ → ℚ) (scores : List ℚ) : Option (List ℚ) :=
  let lg := sizesLog f scores
  let lo := listMin lg
  let hi := listMax lg
  if hi - lo = 0 then none
  else
    some (lg.map (fun x =>
      (x - lo) / (hi - lo) * (max_display_size - min_display_size) +
        min_display_size))

/-- Insert an entry into a list that is sorted by descending score, placing
it before all entries of equal or smaller score.  This realizes the stable
descending sort of line 123 (`sorted(..., key=score, reverse=True)`): an
entry passes only entries of strictly greater score, so entries with equal
scores keep their original relative order. -/
def insertDesc {α : Type} (p : α × ℚ) : List (α × ℚ) → List (α × ℚ)
  | [] => [p]
  | q :: t => if p.2 < q.2 then q :: insertDesc p t else p :: q :: t

/-- Model of line 123, `sorted(pagerank_scores.items(), key=score,
reverse=True)`: the stable sort of the score items by descending score
(stable sorting is unique given the comparator, so insertion sort realizes
Python's Timsort semantics). -/
def sorted_stations {α : Type} : List (α × ℚ) → List (α × ℚ)
  | [] => []
  | p :: t => insertDesc p (sorted_stations t)

/-- Number of labelled stations (line 126, `sorted_stations[:15]`). -/
def topK : ℕ := 15

/-- Model of line 126: the Label Selector takes the first `topK` entries of
the descending-sorted score items. -/
def labelSet {α : Type} (items : List (α × ℚ)) : List (α × ℚ) :=
  (sorted_stations items).take topK

/-- Pipeline-fatal error conditions of the script (spec §7). -/
inductive PipelineError : Type
  | inputNotFound
  | parseError
  | emptyResult
  | emptyIntersection
  deriving DecidableEq

/-- Model of the main script from line 92 onward, starting from a loaded
graph and coordinate dictionary: `if not pos: sys.exit()` (an empty
dictionary is falsy — `EmptyResult`), then the Graph Filter with its
`EmptyIntersection` exit (lines 100–103), and on success the filtered
graph, restricted coordinates and PageRank scores (line 109).  An error
result models `sys.exit()` before ranking and rendering run. -/
def pipelineFrom {α β : Type} [DecidableEq α] (G : NXDiGraph α)
    (pos : List (α × β)) :
    Except PipelineError (NXDiGraph α × List (α × β) × (α → ℚ)) :=
  if pos.isEmpty then Except.error PipelineError.emptyResult
  else if G.nodes ∩ dictKeys pos = ∅ then
    Except.error PipelineError.emptyIntersection
  else
    let fg := graphFilter G pos
    Except.ok (fg.1, fg.2, pagerank fg.1)

/-- Python dictionary read `m[k]` / `m.get(k)`: the value stored at a key. -/
def dictGet {α β : Type} [DecidableEq α] (m : List (α × β)) (k : α) :
    Option β :=
  (m.find? (fun p => p.1 = k)).map Prod.snd

theorem normalizeName_of_getLast (s : RName) (h : s.getLast? = some zhan) :
    normalizeName s ++ [zhan] = s := by
  rw [normalizeName, if_pos h]
  exact List.dropLast_append_getLast? zhan h

/-- C5: an accepted coordinate name ending with the designator character is
stored with exactly that one trailing character removed (so re-appending the
designator recovers the raw name), and a name not ending with it is stored
unchanged. -/
theorem c5_designator_stripping (s : RName) :
    (s.getLast? = some zhan →
      normalizeName s = s.dropLast ∧ normalizeName s ++ [zhan] = s) ∧
    (s.getLast? ≠ some zhan → normalizeName s = s) := by
  refine ⟨fun h => ⟨?_, normalizeName_of_getLast s h⟩, fun h => ?_⟩
  · rw [normalizeName, if_pos h]
  · rw [normalizeName, if_neg h]

/-- Witness for C5 at the raw name `北京站`. -/
theorem c5_designator_stripping_witness :
    normalizeName ['北', '京', '站'] ++ [zhan] = ['北', '京', '站'] :=
  ((c5_designator_stripping ['北', '京', '站']).1 (by decide)).2

theorem mem_edges_build (rows : List LineRow) (g : NXDiGraph RName)
    (s d : RName) :
    (s, d) ∈ (build_graph_from_csv rows g).edges ↔
      (s, d) ∈ g.edges ∨ ∃ r ∈ rows, edgeOfRow r = some (s, d) := by
  induction rows generalizing g with
  | nil => simp [build_graph_from_csv]
  | cons r t ih =>
    have hstep : build_graph_from_csv (r :: t) g
        = build_graph_from_csv t
            (match edgeOfRow r with
             | some (s2, d2) => NXDiGraph.addEdge g s2 d2
             | none => g) := rfl
    rw [hstep]
    cases he : edgeOfRow r with
    | none =>
      rw [ih]
      simp only [List.mem_cons]
      constructor
      · rintro (h | ⟨r2, h2, h3⟩)
        · exact Or.inl h
        · exact Or.inr ⟨r2, Or.inr h2, h3⟩
      · rintro (h | ⟨r2, h2 | h2, h3⟩)
        · exact Or.inl h
        · rw [h2, he] at h3; cases h3
        · exact Or.inr ⟨r2, h2, h3⟩
    | some e =>
      obtain ⟨es, ed⟩ := e
      rw [ih]
      simp only [NXDiGraph.addEdge, Finset.mem_insert, List.mem_cons,
        Prod.mk.injEq]
      constructor
      · rintro ((⟨h1, h2⟩ | h) | ⟨r2, h2, h3⟩)
        · exact Or.inr ⟨r, Or.inl rfl, by rw [he, h1, h2]⟩
        · exact Or.inl h
        · exact Or.inr ⟨r2, Or.inr h2, h3⟩
      · rintro (h | ⟨r2, h2 | h2, h3⟩)
        · exact Or.inl (Or.inr h)
        · rw [h2, he] at h3
          injection h3 with h3
          injection h3 with h1 h4
          exact Or.inl (Or.inl ⟨h1.symm, h4.symm⟩)
        · exact Or.inr ⟨r2, h2, h3⟩

theorem edgeOfRow_eq_some (r : LineRow) (s d : RName) :
    edgeOfRow r = some (s, d) ↔
      r.src = some s ∧ r.dst = some d ∧ s ≠ [] ∧ d ≠ [] := by
  obtain ⟨os, od⟩ := r
  cases os with
  | none => simp [edgeOfRow]
  | some s0 =>
    cases od with
    | none => simp [edgeOfRow]
    | some d0 =>
      simp only [edgeOfRow]
      by_cases hs : s0 = []
      · subst hs
        rw [if_neg (by simp)]
        constructor
        · rintro h; cases h
        · rintro ⟨h1, _, h3, _⟩
          injection h1 with h1
          exact absurd h1.symm h3
      · by_cases hd : d0 = []
        · subst hd
          rw [if_neg (by simp)]
          constructor
          · rintro h; cases h
          · rintro ⟨_, h2, _, h4⟩
            injection h2 with h2
            exact absurd h2.symm h4
        · rw [if_pos (by simp [hs, hd])]
          constructor
          · rintro h
            injection h with h
            injection h with h1 h2
            exact ⟨by rw [h1], by rw [h2], h1 ▸ hs, h2 ▸ hd⟩
          · rintro ⟨h1, h2, _, _⟩
            injection h1 with h1
            injection h2 with h2
            rw [h1, h2]

/-- C4: starting from the empty graph, the Edge Loader produces a graph whose
edge set is exactly the set of (src, dst) pairs of rows with both fields
present and non-empty (duplicates collapse because the edge container is a
set), and re-adding an existing edge is a no-op. -/
theorem c4_edge_loader :
    (∀ (rows : List LineRow) (s d : RName),
      (s, d) ∈ (build_graph_from_csv rows (NXDiGraph.empty RName)).edges ↔
        ∃ r ∈ rows, r.src = some s ∧ r.dst = some d ∧ s ≠ [] ∧ d ≠ []) ∧
    ∀ (g : NXDiGraph RName) (u v : RName),
      (g.addEdge u v).addEdge u v = g.addEdge u v := by
  constructor
  · intro rows s d
    rw [mem_edges_build]
    simp only [NXDiGraph.empty, Finset.not_mem_empty, false_or]
    exact exists_congr fun r => and_congr_right fun _ => edgeOfRow_eq_some r s d
  · intro g u v
    simp only [NXDiGraph.addEdge, NXDiGraph.mk.injEq]
    refine ⟨?_, Finset.insert_idem _ _⟩
    rw [Finset.Insert.comm v u, Finset.insert_idem, Finset.insert_idem]

/-- C2: the Graph Filter's node set is exactly the intersection of the
graph's node set with the coordinate key set; an edge survives exactly when
it is a graph edge with both endpoints in that intersection (induced
subgraph); and the restricted coordinate mapping holds exactly the entries
whose key lies in that intersection. -/
theorem c2_graph_filter {α : Type} [DecidableEq α] (G : NXDiGraph α)
    (pos : List (α × (ℚ × ℚ))) :
    (graphFilter G pos).1.nodes = G.nodes ∩ dictKeys pos ∧
    (∀ e : α × α, e ∈ (graphFilter G pos).1.edges ↔
      e ∈ G.edges ∧ e.1 ∈ G.nodes ∩ dictKeys pos ∧
        e.2 ∈ G.nodes ∩ dictKeys pos) ∧
    (∀ (k : α) (c : ℚ × ℚ), (k, c) ∈ (graphFilter G pos).2 ↔
      (k, c) ∈ pos ∧ k ∈ G.nodes ∩ dictKeys pos) := by
  refine ⟨rfl, fun e => ?_, fun k c => ?_⟩
  · simp only [graphFilter, Finset.mem_filter]
  · simp only [graphFilter, List.mem_filter, decide_eq_true_eq]

/-- Witness for C2: the edge characterization evaluated on a one-node graph
with a self-loop and a matching coordinate entry. -/
theorem c2_graph_filter_witness :
    (true, true) ∈
        (graphFilter (⟨{true}, {(true, true)}⟩ : NXDiGraph Bool)
          [(true, ((0 : ℚ), (0 : ℚ)))]).1.edges ↔
      (true, true) ∈ ({(true, true)} : Finset (Bool × Bool)) ∧
        true ∈ ({true} : Finset Bool) ∩
          dictKeys [(true, ((0 : ℚ), (0 : ℚ)))] ∧
        true ∈ ({true} : Finset Bool) ∩
          dictKeys [(true, ((0 : ℚ), (0 : ℚ)))] :=
  (c2_graph_filter (⟨{true}, {(true, true)}⟩ : NXDiGraph Bool)
    [(true, ((0 : ℚ), (0 : ℚ)))]).2.1 (true, true)

/-- C9 (amended): for a non-empty coordinate dictionary whose key set does
not meet the graph's node set, the pipeline stops with `EmptyIntersection`
at the Graph Filter stage; no filtered graph, restriction or ranking is
produced. -/
theorem c9_empty_intersection {α : Type} [DecidableEq α] (G : NXDiGraph α)
    (pos : List (α × (ℚ × ℚ))) (h1 : pos ≠ [])
    (h2 : G.nodes ∩ dictKeys pos = ∅) :
    pipelineFrom G pos = Except.error PipelineError.emptyIntersection := by
  rw [pipelineFrom, if_neg (by simpa using h1), if_pos h2]

/-- Witness for C9's amended theorem at a concrete disjoint graph and
coordinate dictionary. -/
theorem c9_empty_intersection_witness :
    pipelineFrom (⟨{true}, ∅⟩ : NXDiGraph Bool)
        [(false, ((0 : ℚ), (0 : ℚ)))] =
      Except.error PipelineError.emptyIntersection :=
  c9_empty_intersection (⟨{true}, ∅⟩ : NXDiGraph Bool)
    [(false, ((0 : ℚ), (0 : ℚ)))] (by decide) (by decide)

/-- Counterexample to C9 as stated: with an empty coordinate dictionary the
intersection is empty, yet the script exits at the earlier falsy-dictionary
check (`if not pos`) with the empty-result error, not `EmptyIntersection`. -/
theorem c9_counterexample :
    (⟨{true}, ∅⟩ : NXDiGraph Bool).nodes ∩
        dictKeys ([] : List (Bool × (ℚ × ℚ))) = ∅ ∧
      pipelineFrom (⟨{true}, ∅⟩ : NXDiGraph Bool)
          ([] : List (Bool × (ℚ × ℚ))) ≠
        Except.error PipelineError.emptyIntersection := by
  constructor
  · decide
  · rw [pipelineFrom, if_pos (by decide)]
    intro h
    injection h with h
    cases h

theorem listMin_mem : ∀ l : List ℚ, l ≠ [] → listMin l ∈ l
  | [], h => absurd rfl h
  | [a], _ => by simp [listMin]
  | a :: b :: t, _ => by
    rw [listMin]
    rcases min_cases a (listMin (b :: t)) with ⟨he, _⟩ | ⟨he, _⟩
    · rw [he]; exact List.mem_cons_self a _
    · rw [he]
      exact List.mem_cons_of_mem a (listMin_mem (b :: t) (by simp))

theorem listMax_mem : ∀ l : List ℚ, l ≠ [] → listMax l ∈ l
  | [], h => absurd rfl h
  | [a], _ => by simp [listMax]
  | a :: b :: t, _ => by
    rw [listMax]
    rcases max_cases a (listMax (b :: t)) with ⟨he, _⟩ | ⟨he, _⟩
    · rw [he]; exact List.mem_cons_self a _
    · rw [he]
      exact List.mem_cons_of_mem a (listMax_mem (b :: t) (by simp))

theorem listMin_le : ∀ (l : List ℚ), ∀ x ∈ l, listMin l ≤ x
  | [] => by intro x hx; cases hx
  | [a] => by simp [listMin]
  | a :: b :: t => by
    intro x hx
    rw [listMin]
    rcases List.mem_cons.mp hx with h | h
    · rw [h]; exact min_le_left _ _
    · exact le_trans (min_le_right _ _) (listMin_le (b :: t) x h)

theorem le_listMax : ∀ (l : List ℚ), ∀ x ∈ l, x ≤ listMax l
  | [] => by intro x hx; cases hx
  | [a] => by simp [listMax]
  | a :: b :: t => by
    intro x hx
    rw [listMax]
    rcases List.mem_cons.mp hx with h | h
    · rw [h]; exact le_max_left _ _
    · exact le_trans (le_listMax (b :: t) x h) (le_max_right _ _)

/-- C3 (code defect): when all log-scaled values coincide, the min–max
denominator `max - min` is zero and the scaling performs the division `0/0`
(NaN under `numpy`, modelled as `none`); no guard maps the nodes to the
midpoint 152.5 of the display range. -/
theorem c3_zero_variance_division (f : ℚ → ℚ) (scores : List ℚ)
    (hne : scores ≠ [])
    (heq : ∀ a ∈ sizesLog f scores, ∀ b ∈ sizesLog f scores, a = b) :
    listMax (sizesLog f scores) - listMin (sizesLog f scores) = 0 ∧
      node_sizes_scaled f scores = none := by
  have hlg : sizesLog f scores ≠ [] := by
    cases scores with
    | nil => exact absurd rfl hne
    | cons a t => simp [sizesLog]
  have hz : listMax (sizesLog f scores) - listMin (sizesLog f scores) = 0 := by
    rw [heq (listMax _) (listMax_mem _ hlg) (listMin _) (listMin_mem _ hlg)]
    ring
  exact ⟨hz, by rw [node_sizes_scaled, if_pos hz]⟩

/-- Witness for C3's theorem on the all-equal score list `[1, 1]`. -/
theorem c3_zero_variance_division_witness :
    listMax (sizesLog id [1, 1]) - listMin (sizesLog id [1, 1]) = 0 ∧
      node_sizes_scaled id [1, 1] = none :=
  c3_zero_variance_division id [1, 1] (by decide)
    (by intro a ha b hb; simp [sizesLog] at ha hb; rw [ha, hb])

/-- C7: when the scores are not all equal (and the log model `f` is strictly
monotone, as `log10` is), Visual Scaling succeeds and equals `scores.map g`
for a function `g` that is monotone in the score, with every output inside
`[min_display_size, max_display_size]`. -/
theorem c7_visual_scaling (f : ℚ → ℚ) (scores : List ℚ) (hf : StrictMono f)
    (hvar : ∃ a ∈ scores, ∃ b ∈ scores, a ≠ b) :
    ∃ g : ℚ → ℚ, node_sizes_scaled f scores = some (scores.map g) ∧
      (∀ a b : ℚ, a ≤ b → g a ≤ g b) ∧
      ∀ s ∈ scores, min_display_size ≤ g s ∧ g s ≤ max_display_size := by
  obtain ⟨a, ha, b, hb, hab⟩ := hvar
  have key : ∀ x y : ℚ, x ∈ scores → y ∈ scores → x < y →
      listMin (sizesLog f scores) < listMax (sizesLog f scores) := by
    intro x y hx hy hxy
    have hfx : f (x + logEps) ∈ sizesLog f scores :=
      List.mem_map.mpr ⟨x, hx, rfl⟩
    have hfy : f (y + logEps) ∈ sizesLog f scores :=
      List.mem_map.mpr ⟨y, hy, rfl⟩
    calc listMin (sizesLog f scores) ≤ f (x + logEps) :=
          listMin_le _ _ hfx
      _ < f (y + logEps) := hf (by linarith)
      _ ≤ listMax (sizesLog f scores) := le_listMax _ _ hfy
  have hlt : listMin (sizesLog f scores) < listMax (sizesLog f scores) := by
    rcases lt_or_gt_of_ne hab with h | h
    · exact key a b ha hb h
    · exact key b a hb ha h
  set lo := listMin (sizesLog f scores) with hlo
  set hi := listMax (sizesLog f scores) with hhi
  have hd : (0 : ℚ) < hi - lo := sub_pos.mpr hlt
  have hd0 : hi - lo ≠ 0 := ne_of_gt hd
  have hwide : (0 : ℚ) ≤ max_display_size - min_display_size := by
    norm_num [max_display_size, min_display_size]
  refine ⟨fun s =>
      (f (s + logEps) - lo) / (hi - lo) *
        (max_display_size - min_display_size) + min_display_size,
    ?_, ?_, ?_⟩
  · simp only [node_sizes_scaled, ← hlo, ← hhi, if_neg hd0,
      Option.some.injEq]
    rw [sizesLog, List.map_map]
    rfl
  · intro x y hxy
    have hfx : f (x + logEps) ≤ f (y + logEps) :=
      hf.le_iff_le.mpr (by linarith)
    have h1 : (f (x + logEps) - lo) / (hi - lo) ≤
        (f (y + logEps) - lo) / (hi - lo) :=
      (div_le_div_iff_of_pos_right hd).mpr (by linarith)
    have := mul_le_mul_of_nonneg_right h1 hwide
    linarith
  · intro s hs
    have hmem : f (s + logEps) ∈ sizesLog f scores :=
      List.mem_map.mpr ⟨s, hs, rfl⟩
    have h1 : lo ≤ f (s + logEps) := listMin_le _ _ hmem
    have h2 : f (s + logEps) ≤ hi := le_listMax _ _ hmem
    have hn0 : (0 : ℚ) ≤ (f (s + logEps) - lo) / (hi - lo) :=
      div_nonneg (by linarith) hd.le
    have hn1 : (f (s + logEps) - lo) / (hi - lo) ≤ 1 :=
      (div_le_one hd).mpr (by linarith)
    constructor
    · nlinarith
    · nlinarith

/-- Witness for C7 on the two-score list `[0, 1]` with the identity as the
strictly monotone log model. -/
theorem c7_visual_scaling_witness :
    ∃ g : ℚ → ℚ, node_sizes_scaled id [0, 1] = some (List.map g [0, 1]) ∧
      (∀ a b : ℚ, a ≤ b → g a ≤ g b) ∧
      ∀ s ∈ [(0 : ℚ), 1], min_display_size ≤ g s ∧ g s ≤ max_display_size :=
  c7_visual_scaling id [0, 1] strictMono_id
    ⟨0, by simp, 1, by simp, by norm_num⟩

theorem length_insertDesc {α : Type} (p : α × ℚ) :
    ∀ l : List (α × ℚ), (insertDesc p l).length = l.length + 1
  | [] => rfl
  | q :: t => by
    rw [insertDesc]
    split
    · simp [length_insertDesc p t]
    · simp

theorem length_sorted_stations {α : Type} :
    ∀ l : List (α × ℚ), (sorted_stations l).length = l.length
  | [] => rfl
  | p :: t => by
    rw [sorted_stations, length_insertDesc, length_sorted_stations t,
      List.length_cons]

theorem mem_insertDesc {α : Type} (p q : α × ℚ) :
    ∀ l : List (α × ℚ), q ∈ insertDesc p l ↔ q = p ∨ q ∈ l
  | [] => by simp [insertDesc]
  | r :: t => by
    rw [insertDesc]
    split
    · rw [List.mem_cons, mem_insertDesc p q t, List.mem_cons]
      tauto
    · rw [List.mem_cons, List.mem_cons]

theorem pairwise_insertDesc {α : Type} (p : α × ℚ) :
    ∀ l : List (α × ℚ),
      l.Pairwise (fun a b : α × ℚ => b.2 ≤ a.2) →
      (insertDesc p l).Pairwise (fun a b : α × ℚ => b.2 ≤ a.2)
  | [], _ => List.pairwise_singleton _ _
  | q :: t, h => by
    rw [insertDesc]
    obtain ⟨hq, ht⟩ := List.pairwise_cons.mp h
    split
    case isTrue hlt =>
      refine List.pairwise_cons.mpr ⟨?_, pairwise_insertDesc p t ht⟩
      intro r hr
      rcases (mem_insertDesc p r t).mp hr with h2 | h2
      · rw [h2]; exact le_of_lt hlt
      · exact hq r h2
    case isFalse hge =>
      refine List.pairwise_cons.mpr ⟨?_, h⟩
      intro r hr
      rcases List.mem_cons.mp hr with h2 | h2
      · rw [h2]; exact le_of_not_lt hge
      · exact le_trans (hq r h2) (le_of_not_lt hge)

theorem pairwise_sorted_stations {α : Type} :
    ∀ l : List (α × ℚ),
      (sorted_stations l).Pairwise (fun a b : α × ℚ => b.2 ≤ a.2)
  | [] => List.Pairwise.nil
  | p :: t => pairwise_insertDesc p _ (pairwise_sorted_stations t)

theorem filter_insertDesc_pos {α : Type} (p : α × ℚ) (c : ℚ) (hc : p.2 = c) :
    ∀ l : List (α × ℚ),
      (insertDesc p l).filter (fun q => q.2 = c) =
        p :: l.filter (fun q => q.2 = c)
  | [] => by simp [insertDesc, hc]
  | q :: t => by
    rw [insertDesc]
    split
    case isTrue hlt =>
      have hq : ¬(q.2 = c) := by rw [← hc]; exact ne_of_gt hlt
      rw [List.filter_cons, if_neg (by simpa using hq),
        filter_insertDesc_pos p c hc t, List.filter_cons,
        if_neg (by simpa using hq)]
    case isFalse hge =>
      rw [List.filter_cons, if_pos (by simpa using hc)]

theorem filter_insertDesc_neg {α : Type} (p : α × ℚ) (c : ℚ) (hc : p.2 ≠ c) :
    ∀ l : List (α × ℚ),
      (insertDesc p l).filter (fun q => q.2 = c) =
        l.filter (fun q => q.2 = c)
  | [] => by simp [insertDesc, hc]
  | q :: t => by
    rw [insertDesc]
    split
    case isTrue hlt =>
      rw [List.filter_cons, filter_insertDesc_neg p c hc t, List.filter_cons]
    case isFalse hge =>
      rw [List.filter_cons, if_neg (by simpa using hc)]

theorem filter_sorted_stations {α : Type} (c : ℚ) :
    ∀ l : List (α × ℚ),
      (sorted_stations l).filter (fun q => q.2 = c) =
        l.filter (fun q => q.2 = c)
  | [] => rfl
  | p :: t => by
    rw [sorted_stations]
    by_cases hc : p.2 = c
    · rw [filter_insertDesc_pos p c hc, filter_sorted_stations c t,
        List.filter_cons, if_pos (by simpa using hc)]
    · rw [filter_insertDesc_neg p c hc, filter_sorted_stations c t,
        List.filter_cons, if_neg (by simpa using hc)]

/-- C8: the Label Selector returns `min 15 n` entries, ordered by
non-increasing score, and the stable sort preserves the original order of
entries with any given score (so ties keep the ScoreMap's insertion
order). -/
theorem c8_label_selector {α : Type} (items : List (α × ℚ)) :
    (labelSet items).length = min topK items.length ∧
    (labelSet items).Pairwise (fun a b : α × ℚ => b.2 ≤ a.2) ∧
    ∀ c : ℚ, (sorted_stations items).filter (fun q => q.2 = c) =
      items.filter (fun q => q.2 = c) := by
  refine ⟨?_, ?_, fun c => filter_sorted_stations c items⟩
  · rw [labelSet, List.length_take, length_sorted_stations]
  · exact List.Pairwise.sublist (List.take_sublist _ _)
      (pairwise_sorted_stations items)

theorem dictKeys_dictInsert {α β : Type} [DecidableEq α] (k : α) (v : β) :
    ∀ m : List (α × β), dictKeys (dictInsert m k v) = insert k (dictKeys m)
  | [] => by simp [dictKeys, dictInsert]
  | p :: t => by
    rw [dictInsert]
    split
    case isTrue h =>
      show dictKeys ((k, v) :: t) = insert k (dictKeys (p :: t))
      simp only [dictKeys, List.map_cons, List.toFinset_cons]
      rw [h, Finset.insert_idem]
    case isFalse h =>
      show dictKeys (p :: dictInsert t k v) = insert k (dictKeys (p :: t))
      have ht := dictKeys_dictInsert k v t
      simp only [dictKeys, List.map_cons, List.toFinset_cons] at ht ⊢
      rw [ht]
      exact Finset.Insert.comm _ _ _

theorem mem_dictKeys_fold (rows : List CoordRow) :
    ∀ (m : List (RName × (PyFloat × PyFloat))) (k : RName),
      k ∈ dictKeys (rows.foldl coordStep m) ↔
      k ∈ dictKeys m ∨ ∃ r ∈ rows, ∃ c, entryOfRow r = some (k, c) := by
  induction rows with
  | nil => intro m k; simp
  | cons r t ih =>
    intro m k
    rw [List.foldl_cons]
    cases he : entryOfRow r with
    | none =>
      have hc : coordStep m r = m := by simp only [coordStep, he]
      rw [hc, ih m k]
      simp only [List.mem_cons]
      constructor
      · rintro (h | ⟨r2, h2, h3⟩)
        · exact Or.inl h
        · exact Or.inr ⟨r2, Or.inr h2, h3⟩
      · rintro (h | ⟨r2, h2 | h2, c, h3⟩)
        · exact Or.inl h
        · rw [h2, he] at h3; cases h3
        · exact Or.inr ⟨r2, h2, c, h3⟩
    | some e =>
      obtain ⟨k2, c2⟩ := e
      have hc : coordStep m r = dictInsert m k2 c2 := by
        simp only [coordStep, he]
      rw [hc, ih _ k, dictKeys_dictInsert, Finset.mem_insert]
      simp only [List.mem_cons]
      constructor
      · rintro ((h | h) | ⟨r2, h2, h3⟩)
        · exact Or.inr ⟨r, Or.inl rfl, c2, by rw [he, h]⟩
        · exact Or.inl h
        · exact Or.inr ⟨r2, Or.inr h2, h3⟩
      · rintro (h | ⟨r2, h2 | h2, c, h3⟩)
        · exact Or.inl (Or.inr h)
        · rw [h2, he] at h3
          injection h3 with h3
          injection h3 with h4 h5
          exact Or.inl (Or.inl h4.symm)
        · exact Or.inr ⟨r2, h2, c, h3⟩

theorem entryOfRow_eq_some (r : CoordRow) (k : RName) :
    (∃ c, entryOfRow r = some (k, c)) ↔
      ∃ n lo la, r.name = some n ∧ r.lon = some lo ∧ r.lat = some la ∧
        n ≠ [] ∧ lo ≠ [] ∧ la ≠ [] ∧ (pyFloat lo).isSome ∧
        (pyFloat la).isSome ∧ normalizeName n = k := by
  obtain ⟨on2, ol, oa⟩ := r
  cases on2 with
  | none => simp [entryOfRow]
  | some n =>
    cases ol with
    | none => simp [entryOfRow]
    | some lo =>
      cases oa with
      | none => simp [entryOfRow]
      | some la =>
        by_cases hn : n = []
        · subst hn; simp [entryOfRow]
        · by_cases hlo : lo = []
          · subst hlo; simp [entryOfRow]
          · by_cases hla : la = []
            · subst hla; simp [entryOfRow]
            · have htr : (!List.isEmpty n && !List.isEmpty lo
                  && !List.isEmpty la) = true := by
                simp [hn, hlo, hla]
              simp only [entryOfRow, htr, if_true]
              cases hx : pyFloat lo with
              | none => simp [hx, hn, hlo, hla]
              | some x =>
                cases hy : pyFloat la with
                | none => simp [hx, hy, hn, hlo, hla]
                | some y =>
                  simp only [hx, hy, Option.some.injEq, Prod.mk.injEq]
                  constructor
                  · rintro ⟨c, hc, -⟩
                    exact ⟨n, lo, la, rfl, rfl, rfl, hn, hlo, hla,
                      by simp [hx], by simp [hy], hc⟩
                  · rintro ⟨n2, lo2, la2, h1, h2, h3, -, -, -, -, -, h9⟩
                    exact ⟨(x, y), by rw [h1]; exact h9, rfl⟩

/-- C6: a key appears in the loaded coordinate dictionary exactly when some
row has all three fields present and non-empty, both coordinate texts parse
as finite decimals, and the normalized name equals that key; every other
row is skipped without affecting the result (the loader is total). -/
theorem c6_coordinate_loader (rows : List CoordRow) (k : RName) :
    k ∈ dictKeys (load_coordinates_from_csv rows) ↔
      ∃ r ∈ rows, ∃ n lo la,
        r.name = some n ∧ r.lon = some lo ∧ r.lat = some la ∧
        n ≠ [] ∧ lo ≠ [] ∧ la ≠ [] ∧ (pyFloat lo).isSome ∧
        (pyFloat la).isSome ∧ normalizeName n = k := by
  rw [load_coordinates_from_csv, mem_dictKeys_fold]
  simp only [dictKeys, List.map_nil, List.toFinset_nil,
    Finset.not_mem_empty, false_or]
  exact exists_congr fun r =>
    and_congr_right fun _ => entryOfRow_eq_some r k

/-- Counterexample to C6 as stated: a row whose longitude text is `inf`
contributes an entry — `float` succeeds on `inf` and the program stores the
non-finite coordinate — although `inf` does not parse as a finite decimal
number. -/
theorem c6_counterexample :
    ['X'] ∈ dictKeys (load_coordinates_from_csv
        [⟨some ['X'], some ['i', 'n', 'f'], some ['1']⟩]) ∧
      pyFloatFinite ['i', 'n', 'f'] = false := by
  constructor
  · decide
  · rfl

theorem dictGet_dictInsert_self {α β : Type} [DecidableEq α] (k : α)
    (v : β) : ∀ m : List (α × β), dictGet (dictInsert m k v) k = some v
  | [] => by simp [dictGet, dictInsert]
  | p :: t => by
    rw [dictInsert]
    split
    case isTrue h => simp [dictGet]
    case isFalse h =>
      rw [dictGet, List.find?_cons_of_neg _ (by simpa using h)]
      exact dictGet_dictInsert_self k v t

theorem dictGet_dictInsert_ne {α β : Type} [DecidableEq α] (k k2 : α)
    (v : β) (hk : k2 ≠ k) :
    ∀ m : List (α × β), dictGet (dictInsert m k v) k2 = dictGet m k2
  | [] => by
    rw [dictInsert, dictGet,
      List.find?_cons_of_neg _ (by simpa using hk.symm)]
    rfl
  | p :: t => by
    rw [dictInsert]
    split
    case isTrue h =>
      rw [dictGet, List.find?_cons_of_neg _ (by simpa using hk.symm),
        dictGet, List.find?_cons_of_neg _ (by rw [h]; simpa using hk.symm)]
    case isFalse h =>
      by_cases hp : p.1 = k2
      · rw [dictGet, List.find?_cons_of_pos _ (by simpa using hp),
          dictGet, List.find?_cons_of_pos _ (by simpa using hp)]
      · rw [dictGet, List.find?_cons_of_neg _ (by simpa using hp),
          dictGet, List.find?_cons_of_neg _ (by simpa using hp)]
        exact dictGet_dictInsert_ne k k2 v hk t

theorem getLast?_cons_or {α : Type} (a : α) (l : List α) :
    (a :: l).getLast? = l.getLast?.or (some a) := by
  cases l with
  | nil => simp
  | cons b t =>
    rw [List.getLast?_cons_cons]
    cases h : (b :: t).getLast? with
    | none => exact absurd (List.getLast?_eq_none_iff.mp h) (by simp)
    | some x => simp [Option.or]

theorem dictGet_load_fold (k : RName) :
    ∀ (rows : List CoordRow) (m : List (RName × (PyFloat × PyFloat))),
      dictGet (rows.foldl coordStep m) k =
        (((rows.filterMap entryOfRow).filter
            (fun p => p.1 = k)).getLast?.map Prod.snd).or (dictGet m k)
  | [], m => by simp
  | r :: t, m => by
    rw [List.foldl_cons]
    cases he : entryOfRow r with
    | none =>
      have hc : coordStep m r = m := by simp only [coordStep, he]
      rw [hc, dictGet_load_fold k t m, List.filterMap_cons_none he]
    | some e =>
      obtain ⟨k2, c2⟩ := e
      have hc : coordStep m r = dictInsert m k2 c2 := by
        simp only [coordStep, he]
      rw [hc, dictGet_load_fold k t (dictInsert m k2 c2),
        List.filterMap_cons_some he, List.filter_cons]
      by_cases hk : k2 = k
      · subst hk
        rw [if_pos (by simp)]
        rw [getLast?_cons_or, dictGet_dictInsert_self]
        cases hF : ((t.filterMap entryOfRow).filter
            (fun p => p.1 = k2)).getLast? with
        | none => simp
        | some p => simp
      · rw [if_neg (by simpa using hk), dictGet_dictInsert_ne k2 k c2
          (fun h => hk h.symm)]

/-- C10: a lookup in the loaded CoordinateMap returns the coordinates of
the last valid row (in input order) whose normalized name equals the key —
later rows silently overwrite earlier ones — and the raw name `北京站` and
the bare name `北京` normalize to the same key, so they collide. -/
theorem c10_last_row_wins :
    (∀ (rows : List CoordRow) (k : RName),
      dictGet (load_coordinates_from_csv rows) k =
        ((rows.filterMap entryOfRow).filter
            (fun p => p.1 = k)).getLast?.map Prod.snd) ∧
    normalizeName ['北', '京', '站'] = normalizeName ['北', '京'] := by
  constructor
  · intro rows k
    rw [load_coordinates_from_csv, dictGet_load_fold,
      show dictGet ([] : List (RName × (PyFloat × PyFloat))) k = none
        from rfl,
      Option.or_none]
  · decide

theorem outDeg_eq_card_targets {α : Type} [DecidableEq α] (G : NXDiGraph α)
    (hE : ∀ e ∈ G.edges, e.1 ∈ G.nodes ∧ e.2 ∈ G.nodes) (u : α) :
    (G.nodes.filter (fun v => (u, v) ∈ G.edges)).card = outDeg G u := by
  rw [outDeg]
  refine Finset.card_bij (fun v _ => (u, v)) ?_ ?_ ?_
  · intro v hv
    rw [Finset.mem_filter] at hv
    exact Finset.mem_filter.mpr ⟨hv.2, rfl⟩
  · intro v1 h1 v2 h2 h
    exact (Prod.mk.injEq _ _ _ _).mp h |>.2
  · intro e he2
    rw [Finset.mem_filter] at he2
    obtain ⟨hee, hfst⟩ := he2
    refine ⟨e.2, Finset.mem_filter.mpr ⟨(hE e hee).2, ?_⟩, ?_⟩
    · rw [show (u, e.2) = e from Prod.ext hfst.symm rfl]
      exact hee
    · exact Prod.ext hfst.symm rfl

theorem sum_ite_edge {α : Type} [DecidableEq α] (G : NXDiGraph α)
    (hE : ∀ e ∈ G.edges, e.1 ∈ G.nodes ∧ e.2 ∈ G.nodes) (x : α → ℚ)
    (u : α) :
    ∑ v ∈ G.nodes, (if (u, v) ∈ G.edges then x u / outDeg G u else 0) =
      (outDeg G u : ℚ) * (x u / outDeg G u) := by
  rw [← Finset.sum_filter, Finset.sum_const, nsmul_eq_mul,
    outDeg_eq_card_targets G hE u]

theorem pagerankStep_sum {α : Type} [DecidableEq α] (G : NXDiGraph α)
    (hE : ∀ e ∈ G.edges, e.1 ∈ G.nodes ∧ e.2 ∈ G.nodes)
    (hn : G.nodes.Nonempty) (x : α → ℚ)
    (hx : ∑ v ∈ G.nodes, x v = 1) :
    ∑ v ∈ G.nodes, pagerankStep G x v = 1 := by
  have hn0 : (0 : ℚ) < (G.nodes.card : ℚ) := by
    exact_mod_cast Finset.card_pos.mpr hn
  have hcongr : ∀ v ∈ G.nodes, pagerankStep G x v =
      (1 - alphaDamping) / G.nodes.card +
        alphaDamping *
          ((∑ u ∈ G.nodes,
              if (u, v) ∈ G.edges then x u / outDeg G u else 0) +
            (∑ u ∈ G.nodes, if outDeg G u = 0 then x u else 0) /
              G.nodes.card) := by
    intro v hv
    rw [pagerankStep, if_pos hv]
  rw [Finset.sum_congr rfl hcongr, Finset.sum_add_distrib]
  have hA : ∑ v ∈ G.nodes,
      (∑ u ∈ G.nodes, if (u, v) ∈ G.edges then x u / outDeg G u else 0) =
      ∑ u ∈ G.nodes, (if outDeg G u = 0 then 0 else x u) := by
    rw [Finset.sum_comm]
    refine Finset.sum_congr rfl fun u _ => ?_
    rw [sum_ite_edge G hE x u]
    by_cases hdeg : outDeg G u = 0
    · rw [hdeg, if_pos rfl]
      simp
    · rw [if_neg hdeg, mul_comm]
      exact div_mul_cancel₀ (x u)
        (by exact_mod_cast hdeg : (outDeg G u : ℚ) ≠ 0)
  have hAB : (∑ u ∈ G.nodes, (if outDeg G u = 0 then 0 else x u)) +
      (∑ u ∈ G.nodes, if outDeg G u = 0 then x u else 0) = 1 := by
    rw [← Finset.sum_add_distrib, ← hx]
    refine Finset.sum_congr rfl fun u _ => ?_
    by_cases hdeg : outDeg G u = 0
    · rw [if_pos hdeg, if_pos hdeg, zero_add]
    · rw [if_neg hdeg, if_neg hdeg, add_zero]
  rw [← Finset.mul_sum, Finset.sum_add_distrib, hA, Finset.sum_const,
    Finset.sum_const, nsmul_eq_mul, nsmul_eq_mul]
  set S1 := ∑ u ∈ G.nodes, (if outDeg G u = 0 then 0 else x u) with hS1
  set S2 := ∑ u ∈ G.nodes, (if outDeg G u = 0 then x u else 0) with hS2
  have h1 : (G.nodes.card : ℚ) * ((1 - alphaDamping) / G.nodes.card)
      = 1 - alphaDamping := by
    field_simp
  have h2 : (G.nodes.card : ℚ) * (S2 / G.nodes.card) = S2 := by
    field_simp
  rw [h1, h2, hAB]
  ring

theorem pagerankStep_nonneg {α : Type} [DecidableEq α] (G : NXDiGraph α)
    (x : α → ℚ) (hx0 : ∀ v, 0 ≤ x v) (v : α) :
    0 ≤ pagerankStep G x v := by
  rw [pagerankStep]
  split
  case isFalse => exact le_refl 0
  case isTrue hv =>
    have hc : (0 : ℚ) ≤ (1 - alphaDamping) / G.nodes.card := by
      apply div_nonneg
      · norm_num [alphaDamping]
      · exact Nat.cast_nonneg _
    have hA : (0 : ℚ) ≤
        ∑ u ∈ G.nodes, (if (u, v) ∈ G.edges then x u / outDeg G u else 0) := by
      refine Finset.sum_nonneg fun u _ => ?_
      split
      · exact div_nonneg (hx0 u) (Nat.cast_nonneg _)
      · exact le_refl 0
    have hB : (0 : ℚ) ≤
        ∑ u ∈ G.nodes, (if outDeg G u = 0 then x u else 0) := by
      refine Finset.sum_nonneg fun u _ => ?_
      split
      · exact hx0 u
      · exact le_refl 0
    have hd : (0 : ℚ) ≤ alphaDamping := by norm_num [alphaDamping]
    have := mul_nonneg hd
      (add_nonneg hA (div_nonneg hB (Nat.cast_nonneg G.nodes.card)))
    linarith

theorem pagerankStep_lower {α : Type} [DecidableEq α] (G : NXDiGraph α)
    (x : α → ℚ) (hx0 : ∀ v, 0 ≤ x v) (v : α) (hv : v ∈ G.nodes) :
    (1 - alphaDamping) / G.nodes.card ≤ pagerankStep G x v := by
  rw [pagerankStep, if_pos hv]
  have hA : (0 : ℚ) ≤
      ∑ u ∈ G.nodes, (if (u, v) ∈ G.edges then x u / outDeg G u else 0) := by
    refine Finset.sum_nonneg fun u _ => ?_
    split
    · exact div_nonneg (hx0 u) (Nat.cast_nonneg _)
    · exact le_refl 0
  have hB : (0 : ℚ) ≤
      ∑ u ∈ G.nodes, (if outDeg G u = 0 then x u else 0) := by
    refine Finset.sum_nonneg fun u _ => ?_
    split
    · exact hx0 u
    · exact le_refl 0
  have hd : (0 : ℚ) ≤ alphaDamping := by norm_num [alphaDamping]
  have := mul_nonneg hd
    (add_nonneg hA (div_nonneg hB (Nat.cast_nonneg G.nodes.card)))
  linarith

theorem pagerankIter_props {α : Type} [DecidableEq α] (G : NXDiGraph α)
    (hE : ∀ e ∈ G.edges, e.1 ∈ G.nodes ∧ e.2 ∈ G.nodes)
    (hn : G.nodes.Nonempty) :
    ∀ (k : ℕ) (x : α → ℚ), (∀ v, 0 ≤ x v) →
      (∑ v ∈ G.nodes, x v = 1) →
      (∀ v ∈ G.nodes, (1 - alphaDamping) / G.nodes.card ≤ x v) →
      (∀ v, 0 ≤ pagerankIter G k x v) ∧
        (∑ v ∈ G.nodes, pagerankIter G k x v = 1) ∧
        (∀ v ∈ G.nodes,
          (1 - alphaDamping) / G.nodes.card ≤ pagerankIter G k x v)
  | 0, x, hx0, hx1, hxl => ⟨hx0, hx1, hxl⟩
  | k + 1, x, hx0, hx1, hxl => by
    have hunfold : pagerankIter G (k + 1) x =
        if (∑ v ∈ G.nodes, |pagerankStep G x v - x v|) <
            G.nodes.card * prTol then pagerankStep G x
        else pagerankIter G k (pagerankStep G x) := rfl
    rw [hunfold]
    have h0 : ∀ v, 0 ≤ pagerankStep G x v :=
      pagerankStep_nonneg G x hx0
    have h1 : ∑ v ∈ G.nodes, pagerankStep G x v = 1 :=
      pagerankStep_sum G hE hn x hx1
    have hl : ∀ v ∈ G.nodes,
        (1 - alphaDamping) / G.nodes.card ≤ pagerankStep G x v :=
      fun v hv => pagerankStep_lower G x hx0 v hv
    split
    · exact ⟨h0, h1, hl⟩
    · exact pagerankIter_props G hE hn k (pagerankStep G x) h0 h1 hl

/-- C1: for every non-empty FilteredGraph produced by the Graph Filter the
Ranking Engine's ScoreMap is non-negative on every node, sums to 1 within
the 1e-6 tolerance, and is strictly positive on every node — including
nodes with no incoming edges — because of the teleport share
`(1-α)/n`. -/
theorem c1_pagerank_distribution {α : Type} [DecidableEq α]
    (G : NXDiGraph α) (pos : List (α × (ℚ × ℚ)))
    (hne : (graphFilter G pos).1.nodes.Nonempty) :
    (∀ v ∈ (graphFilter G pos).1.nodes,
      0 ≤ pagerank (graphFilter G pos).1 v) ∧
    |(∑ v ∈ (graphFilter G pos).1.nodes,
        pagerank (graphFilter G pos).1 v) - 1| ≤ prTol ∧
    (∀ v ∈ (graphFilter G pos).1.nodes,
      0 < pagerank (graphFilter G pos).1 v) := by
  set FG := (graphFilter G pos).1 with hFG
  have hE : ∀ e ∈ FG.edges, e.1 ∈ FG.nodes ∧ e.2 ∈ FG.nodes := by
    intro e he2
    rw [hFG, graphFilter] at he2
    simp only [Finset.mem_filter] at he2
    exact he2.2
  have hn0 : (0 : ℚ) < (FG.nodes.card : ℚ) := by
    exact_mod_cast Finset.card_pos.mpr hne
  have hx0 : ∀ v, 0 ≤ (if v ∈ FG.nodes then (FG.nodes.card : ℚ)⁻¹
      else 0) := by
    intro v
    split
    · exact inv_nonneg.mpr hn0.le
    · exact le_refl 0
  have hx1 : ∑ v ∈ FG.nodes,
      (if v ∈ FG.nodes then (FG.nodes.card : ℚ)⁻¹ else 0) = 1 := by
    rw [Finset.sum_congr rfl
      (fun v hv => if_pos hv : ∀ v ∈ FG.nodes, _ = (FG.nodes.card : ℚ)⁻¹),
      Finset.sum_const, nsmul_eq_mul]
    exact mul_inv_cancel₀ (ne_of_gt hn0)
  have hxl : ∀ v ∈ FG.nodes, (1 - alphaDamping) / FG.nodes.card ≤
      (if v ∈ FG.nodes then (FG.nodes.card : ℚ)⁻¹ else 0) := by
    intro v hv
    rw [if_pos hv, ← one_div]
    exact (div_le_div_iff_of_pos_right hn0).mpr
      (by norm_num [alphaDamping])
  obtain ⟨hp0, hp1, hpl⟩ :=
    pagerankIter_props FG hE hne 100 _ hx0 hx1 hxl
  refine ⟨fun v _ => hp0 v, ?_, fun v hv => ?_⟩
  · rw [show pagerank FG = pagerankIter FG 100
        (fun v => if v ∈ FG.nodes then (FG.nodes.card : ℚ)⁻¹ else 0)
      from rfl, hp1]
    norm_num [prTol]
  · have hpos : (0 : ℚ) < (1 - alphaDamping) / FG.nodes.card :=
      div_pos (by norm_num [alphaDamping]) hn0
    exact lt_of_lt_of_le hpos (hpl v hv)

/-- Witness for C1 on a one-node filtered graph. -/
theorem c1_pagerank_distribution_witness :
    (∀ v ∈ (graphFilter (⟨{true}, ∅⟩ : NXDiGraph Bool)
        [(true, ((0 : ℚ), (0 : ℚ)))]).1.nodes,
      0 ≤ pagerank (graphFilter (⟨{true}, ∅⟩ : NXDiGraph Bool)
        [(true, ((0 : ℚ), (0 : ℚ)))]).1 v) ∧
    |(∑ v ∈ (graphFilter (⟨{true}, ∅⟩ : NXDiGraph Bool)
        [(true, ((0 : ℚ), (0 : ℚ)))]).1.nodes,
        pagerank (graphFilter (⟨{true}, ∅⟩ : NXDiGraph Bool)
          [(true, ((0 : ℚ), (0 : ℚ)))]).1 v) - 1| ≤ prTol ∧
    (∀ v ∈ (graphFilter (⟨{true}, ∅⟩ : NXDiGraph Bool)
        [(true, ((0 : ℚ), (0 : ℚ)))]).1.nodes,
      0 < pagerank (graphFilter (⟨{true}, ∅⟩ : NXDiGraph Bool)
        [(true, ((0 : ℚ), (0 : ℚ)))]).1 v) :=
  c1_pagerank_distribution (⟨{true}, ∅⟩ : NXDiGraph Bool)
    [(true, ((0 : ℚ), (0 : ℚ)))] (by decide)
